import Mathlib

/-!
Shallow embedding of the trie visualizer core (`src/algorithm/trie.ts` and
`src/types.ts`): the `Trie` engine (insert / search / startsWith), the
`VisualNode` snapshot projection, and the step generator
(`generateSteps`, `generateInsertSteps`, `generateSearchSteps`,
`generateStartsWithSteps`).

Modelling conventions:
* A JS string operand is modelled as `List Char` (the code iterates the
  operand character by character); display strings keep their exact text.
* A JS `Map<string, TrieNode>` is modelled as an insertion-ordered
  association list `List (Char × TrieNode)`; `Map.set` overwrites in place
  when the key exists and appends otherwise, which `mapSet` reproduces.
* The module-level `nodeIdCounter` is threaded explicitly: it is a field of
  `Trie` (the `Trie` constructor calls `resetNodeIdCounter`, i.e. starts it
  at 0) and an input/output of every node-creating function.
* In-place mutation is modelled by returning the updated value; the step
  generator for insert carries a `rebuild` continuation that plugs the
  updated current node back into the whole tree, mirroring the fact that
  the source mutates nodes that the root still reaches.
* The child x-coordinate `x + (childIndex - (childCount - 1) / 2) * 80`
  is IEEE-double arithmetic in the source, but every value it produces on
  these inputs is the integer `x + 80 * childIndex - 40 * (childCount - 1)`
  (exactly representable), so coordinates are modelled as `Int`.
* The TS `AlgorithmStep.codeLineMap` record of four fixed language keys is
  modelled as an ordered key/value list; optional TS fields become
  `Option`; the `variables` object becomes an ordered key/value list of
  string/number/boolean values in the order the source writes them.
-/

namespace TrieViz

/-- One vertex of the live trie (interface `TrieNode` in `src/types.ts`).
The `parent` back-reference of the source is omitted: it is never read by
the engine or the step generator. -/
inductive TrieNode : Type where
  | mk (id : String) (char : String) (children : List (Char × TrieNode))
       (isEnd : Bool) (depth : Nat) : TrieNode

def TrieNode.id : TrieNode → String
  | .mk i _ _ _ _ => i

def TrieNode.char : TrieNode → String
  | .mk _ c _ _ _ => c

def TrieNode.children : TrieNode → List (Char × TrieNode)
  | .mk _ _ ch _ _ => ch

def TrieNode.isEnd : TrieNode → Bool
  | .mk _ _ _ e _ => e

def TrieNode.depth : TrieNode → Nat
  | .mk _ _ _ _ d => d

/-- `{ node with isEnd := b }`. -/
def TrieNode.withEnd : TrieNode → Bool → TrieNode
  | .mk i c ch _ d, b => .mk i c ch b d

/-- `{ node with children := ch }`. -/
def TrieNode.withChildren : TrieNode → List (Char × TrieNode) → TrieNode
  | .mk i c _ e d, ch => .mk i c ch e d

/-- `node.children.has(c)` on the insertion-ordered map. -/
def mapHas (m : List (Char × TrieNode)) (c : Char) : Bool :=
  m.any (fun p => p.1 == c)

/-- `node.children.get(c)` on the insertion-ordered map. -/
def mapGet (m : List (Char × TrieNode)) (c : Char) : Option TrieNode :=
  (m.find? (fun p => p.1 == c)).map (fun p => p.2)

/-- `node.children.set(c, v)`: overwrite in place if the key is present,
append otherwise (JS `Map` insertion-order semantics). -/
def mapSet : List (Char × TrieNode) → Char → TrieNode → List (Char × TrieNode)
  | [], c, v => [(c, v)]
  | p :: rest, c, v => if p.1 == c then (c, v) :: rest else p :: mapSet rest c v

/-- `generateNodeId` plus the `nodeIdCounter++` side effect. -/
def generateNodeId (ctr : Nat) : String × Nat :=
  ("node-" ++ toString ctr, ctr + 1)

/-- `createTrieNode(char, depth, parent)` (the unused `parent` argument is
dropped), threading the id counter. -/
def createTrieNode (char : String) (depth : Nat) (ctr : Nat) : TrieNode × Nat :=
  (.mk (generateNodeId ctr).1 char [] false depth, (generateNodeId ctr).2)

/-- The `Trie` engine: its root together with the module-level
`nodeIdCounter` state. -/
structure Trie where
  root : TrieNode
  ctr : Nat

/-- `new Trie()`: resets the id counter to 0 and creates the root. -/
def Trie.new : Trie :=
  ⟨(createTrieNode "" 0 0).1, (createTrieNode "" 0 0).2⟩

/-- The loop body of `Trie.insert`: walk `word`, creating missing children,
and set `isEnd := true` on the node reached. -/
def insertAux (node : TrieNode) : List Char → Nat → TrieNode × Nat
  | [], ctr => (node.withEnd true, ctr)
  | c :: rest, ctr =>
    match mapGet node.children c with
    | some child =>
      let r := insertAux child rest ctr
      (node.withChildren (mapSet node.children c r.1), r.2)
    | none =>
      let nn := createTrieNode (String.singleton c) (node.depth + 1) ctr
      let r := insertAux nn.1 rest nn.2
      (node.withChildren (mapSet node.children c r.1), r.2)

/-- `Trie.insert(word)`. -/
def Trie.insert (t : Trie) (word : List Char) : Trie :=
  ⟨(insertAux t.root word t.ctr).1, (insertAux t.root word t.ctr).2⟩

/-- The loop body of the private `Trie.searchPrefix`: walk the characters,
returning the node reached, or `none` at the first missing child. -/
def searchPrefixAux (node : TrieNode) : List Char → Option TrieNode
  | [] => some node
  | c :: rest =>
    match mapGet node.children c with
    | none => none
    | some child => searchPrefixAux child rest

/-- `Trie.searchPrefix(prefix)` (private helper of the source class). -/
def Trie.searchPrefix (t : Trie) (p : List Char) : Option TrieNode :=
  searchPrefixAux t.root p

/-- `Trie.search(word)`: `node !== null && node.isEnd`. -/
def Trie.search (t : Trie) (word : List Char) : Bool :=
  match Trie.searchPrefix t word with
  | some node => node.isEnd
  | none => false

/-- `Trie.startsWith(prefix)`: `searchPrefix(prefix) !== null`. -/
def Trie.startsWith (t : Trie) (p : List Char) : Bool :=
  ( Trie.searchPrefix t p).isSome

/-- Written from the spec sentence, to compare against the engine:
"a node exists for the full character path of `word`" — follow one child
edge per character from the given node and return the node at the end of
the full character path, if every edge exists. -/
def followPath (node : TrieNode) : List Char → Option TrieNode
  | [] => some node
  | c :: rest =>
    match mapGet node.children c with
    | none => none
    | some child => followPath child rest

/-- Render-ready snapshot node (interface `VisualNode` in `src/types.ts`);
the optional `highlightType` and `label` fields are never produced by
`convertToVisual` and are omitted. -/
inductive VisualNode : Type where
  | mk (id : String) (char : String) (isEnd : Bool) (x : Int) (y : Int)
       (depth : Nat) (children : List VisualNode) (highlighted : Bool) : VisualNode

def VisualNode.id : VisualNode → String
  | .mk i _ _ _ _ _ _ _ => i

def VisualNode.char : VisualNode → String
  | .mk _ c _ _ _ _ _ _ => c

def VisualNode.isEnd : VisualNode → Bool
  | .mk _ _ e _ _ _ _ _ => e

def VisualNode.x : VisualNode → Int
  | .mk _ _ _ x _ _ _ _ => x

def VisualNode.y : VisualNode → Int
  | .mk _ _ _ _ y _ _ _ => y

def VisualNode.depth : VisualNode → Nat
  | .mk _ _ _ _ _ d _ _ => d

def VisualNode.children : VisualNode → List VisualNode
  | .mk _ _ _ _ _ _ ch _ => ch

def VisualNode.highlighted : VisualNode → Bool
  | .mk _ _ _ _ _ _ _ h => h

mutual

/-- The private `Trie.convertToVisual(node, x, y)`:
`childX = x + (childIndex - (childCount - 1) / 2) * 80` is written as the
equal integer `x + 80 * childIndex - 40 * (childCount - 1)`, and
`node.char || 'root'` maps the root's empty char to `"root"`. -/
def convertToVisual (node : TrieNode) (x y : Int) : VisualNode :=
  match node with
  | .mk i c ch e d =>
    .mk i (if c = "" then "root" else c) e x y d
       (convertChildren ch 0 ch.length x y) false

/-- The `node.children.forEach` loop of `convertToVisual`: convert each
child in map (insertion) order, tracking `childIndex` and `childCount`. -/
def convertChildren : List (Char × TrieNode) → Nat → Nat → Int → Int → List VisualNode
  | [], _, _, _, _ => []
  | (_, child) :: rest, i, cnt, x, y =>
    convertToVisual child (x + 80 * (i : Int) - 40 * ((cnt : Int) - 1)) (y + 80)
      :: convertChildren rest (i + 1) cnt x y

end

/-- `Trie.toVisualNode()`. -/
def Trie.toVisualNode (t : Trie) : VisualNode :=
  convertToVisual t.root 0 0

/-- One overlay annotation (interface `Annotation` in `src/types.ts`); the
generator always targets a node, so `nodeId` is kept and the unused
`edgeId` is omitted; the `position` and `type` literal unions stay strings. -/
structure Annotation where
  nodeId : String
  text : String
  position : String
  type : String
deriving DecidableEq

/-- A display-variable value: the TS union `string | number | boolean`. -/
inductive VarValue : Type where
  | str (s : String)
  | num (n : Int)
  | bool (b : Bool)
deriving DecidableEq

/-- One emitted step (interface `AlgorithmStep` in `src/types.ts`). The
generator never emits a `null` snapshot, so `trieSnapshot : VisualNode`. -/
structure AlgorithmStep where
  stepIndex : Nat
  description : String
  codeLineMap : List (String × List Nat)
  highlightedNodes : List String
  highlightedEdges : List String
  currentChar : Option Char
  currentCharIndex : Option Int
  «variables» : List (String × VarValue)
  trieSnapshot : VisualNode
  annotations : List Annotation
  action : Option String

/-- `OperationType` from `src/types.ts`. -/
inductive OperationType : Type where
  | insert
  | search
  | startsWith
deriving DecidableEq

/-- `Operation` from `src/types.ts`; the optional `result` is `none` until
the generator writes it. -/
structure Operation where
  type : OperationType
  word : List Char
  result : Option Bool
deriving DecidableEq

/-- Quote a word the way the template literals do: `"word"`. -/
def quoteWord (w : List Char) : String :=
  "\"" ++ w.asString ++ "\""

/-- Quote a character the way the template literals do: `'c'`. -/
def quoteChar (c : Char) : String :=
  "\x27" ++ String.singleton c ++ "\x27"

/-- The loop of `generateInsertSteps` (lines 175–245): one step per
character (create or move), then the mark-end step. `rebuild` plugs the
updated current node and counter back into the full trie (modelling that
the source mutates a node the root still reaches), `node` is the current
node, `rest` the remaining characters, `i` the current character index,
`pathNodes` the ids walked so far. Returns the emitted steps and the trie
as left by the whole insert. -/
def insertLoop (word : List Char) (rebuild : TrieNode → Nat → Trie) (node : TrieNode)
    (ctr : Nat) (rest : List Char) (i : Nat) (stepIndex : Nat)
    (pathNodes : List String) : List AlgorithmStep × Trie :=
  match rest with
  | [] =>
    let node2 := node.withEnd true
    let t2 := rebuild node2 ctr
    ([{ stepIndex := stepIndex
      , description := "标记节点为单词结尾，" ++ quoteWord word ++ " 插入完成"
      , codeLineMap := [("java", [14]), ("python", [11]), ("golang", [20]), ("javascript", [14])]
      , highlightedNodes := pathNodes
      , highlightedEdges := []
      , currentChar := none
      , currentCharIndex := none
      , «variables» := [("word", .str word.asString), ("isEnd", .bool true)]
      , trieSnapshot := t2.toVisualNode
      , annotations := [{ nodeId := node2.id, text := "标记为结尾 ✓", position := "top", type := "result" }]
      , action := some "markEnd" }], t2)
  | c :: rest2 =>
    match mapGet node.children c with
    | none =>
      let newNode := (createTrieNode (String.singleton c) (node.depth + 1) ctr).1
      let ctr2 := (createTrieNode (String.singleton c) (node.depth + 1) ctr).2
      let node2 := node.withChildren (mapSet node.children c newNode)
      let tNow := rebuild node2 ctr2
      let step : AlgorithmStep :=
        { stepIndex := stepIndex
        , description := "字符 " ++ quoteChar c ++ " 不存在，创建新节点"
        , codeLineMap := [("java", [9, 10, 11]), ("python", [8, 9]), ("golang", [15, 16, 17]), ("javascript", [9, 10, 11])]
        , highlightedNodes := pathNodes ++ [newNode.id]
        , highlightedEdges := []
        , currentChar := some c
        , currentCharIndex := some (i : Int)
        , «variables» := [("word", .str word.asString), ("char", .str (String.singleton c)), ("index", .num (i : Int)), ("action", .str "create")]
        , trieSnapshot := tNow.toVisualNode
        , annotations := [{ nodeId := newNode.id, text := "新建节点 " ++ quoteChar c, position := "top", type := "action" }]
        , action := some "createNode" }
      let rebuild2 : TrieNode → Nat → Trie :=
        fun nd k => rebuild (node2.withChildren (mapSet node2.children c nd)) k
      let r :=
        insertLoop word rebuild2 newNode ctr2 rest2 (i + 1) (stepIndex + 1) (pathNodes ++ [newNode.id])
      (step :: r.1, r.2)
    | some childNode =>
      let tNow := rebuild node ctr
      let step : AlgorithmStep :=
        { stepIndex := stepIndex
        , description := "字符 " ++ quoteChar c ++ " 已存在，移动到子节点"
        , codeLineMap := [("java", [12]), ("python", [10]), ("golang", [18]), ("javascript", [12])]
        , highlightedNodes := pathNodes ++ [childNode.id]
        , highlightedEdges := []
        , currentChar := some c
        , currentCharIndex := some (i : Int)
        , «variables» := [("word", .str word.asString), ("char", .str (String.singleton c)), ("index", .num (i : Int)), ("action", .str "move")]
        , trieSnapshot := tNow.toVisualNode
        , annotations := [{ nodeId := childNode.id, text := "移动到 " ++ quoteChar c, position := "top", type := "action" }]
        , action := some "moveToChild" }
      let rebuild2 : TrieNode → Nat → Trie :=
        fun nd k => rebuild (node.withChildren (mapSet node.children c nd)) k
      let r :=
        insertLoop word rebuild2 childNode ctr rest2 (i + 1) (stepIndex + 1) (pathNodes ++ [childNode.id])
      (step :: r.1, r.2)

/-- `generateInsertSteps(trie, word, startIndex)` (lines 145–275), returning
the steps together with the trie as mutated by the insert. -/
def generateInsertSteps (trie : Trie) (word : List Char) (startIndex : Nat) :
    List AlgorithmStep × Trie :=
  let beginStep : AlgorithmStep :=
    { stepIndex := startIndex
    , description := "开始插入单词 " ++ quoteWord word
    , codeLineMap := [("java", [7]), ("python", [6]), ("golang", [13]), ("javascript", [7])]
    , highlightedNodes := [trie.root.id]
    , highlightedEdges := []
    , currentChar := none
    , currentCharIndex := some (-1)
    , «variables» := [("word", .str word.asString), ("node", .str "root")]
    , trieSnapshot := trie.toVisualNode
    , annotations := [{ nodeId := trie.root.id, text := "插入 " ++ quoteWord word, position := "top", type := "action" }]
    , action := none }
  let r :=
    insertLoop word (fun nd k => ⟨nd, k⟩) trie.root trie.ctr word 0 (startIndex + 1) [trie.root.id]
  (beginStep :: r.1, r.2)

/-- The loop of `generateSearchSteps` (lines 305–411): per character a move
step, or on the first missing child a "not found" step plus a "return
false" step (stopping there); after all characters, the check-end step.
The trie is never mutated, so every snapshot is `trie.toVisualNode`. -/
def searchLoop (trie : Trie) (word : List Char) (node : TrieNode) (rest : List Char)
    (i : Nat) (stepIndex : Nat) (pathNodes : List String) : List AlgorithmStep :=
  match rest with
  | [] =>
    [{ stepIndex := stepIndex
     , description := if node.isEnd then "节点标记为单词结尾，搜索成功！返回 true"
         else "节点未标记为单词结尾，搜索失败。返回 false"
     , codeLineMap := [("java", [18, 19]), ("python", [14, 15]), ("golang", [24, 25]), ("javascript", [18, 19])]
     , highlightedNodes := pathNodes
     , highlightedEdges := []
     , currentChar := none
     , currentCharIndex := none
     , «variables» := [("word", .str word.asString), ("isEnd", .bool node.isEnd), ("result", .bool node.isEnd)]
     , trieSnapshot := trie.toVisualNode
     , annotations := [{ nodeId := node.id, text := if node.isEnd then "是单词结尾 ✓" else "非单词结尾 ✗", position := "top", type := "result" }]
     , action := some "checkEnd" }]
  | c :: rest2 =>
    match mapGet node.children c with
    | none =>
      [{ stepIndex := stepIndex
       , description := "字符 " ++ quoteChar c ++ " 不存在，搜索失败"
       , codeLineMap := [("java", [21, 22]), ("python", [17, 18]), ("golang", [27, 28]), ("javascript", [21, 22])]
       , highlightedNodes := pathNodes
       , highlightedEdges := []
       , currentChar := some c
       , currentCharIndex := some (i : Int)
       , «variables» := [("word", .str word.asString), ("char", .str (String.singleton c)), ("index", .num (i : Int)), ("found", .bool false)]
       , trieSnapshot := trie.toVisualNode
       , annotations := [{ nodeId := node.id, text := quoteChar c ++ " 不存在 ✗", position := "right", type := "result" }]
       , action := some "returnResult" },
       { stepIndex := stepIndex + 1
       , description := "返回 false，单词 " ++ quoteWord word ++ " 不在Trie中"
       , codeLineMap := [("java", [18, 19]), ("python", [14, 15]), ("golang", [24, 25]), ("javascript", [18, 19])]
       , highlightedNodes := pathNodes
       , highlightedEdges := []
       , currentChar := none
       , currentCharIndex := none
       , «variables» := [("word", .str word.asString), ("result", .bool false)]
       , trieSnapshot := trie.toVisualNode
       , annotations := []
       , action := some "returnResult" }]
    | some childNode =>
      { stepIndex := stepIndex
      , description := "找到字符 " ++ quoteChar c ++ "，移动到子节点"
      , codeLineMap := [("java", [23]), ("python", [19]), ("golang", [29]), ("javascript", [23])]
      , highlightedNodes := pathNodes ++ [childNode.id]
      , highlightedEdges := []
      , currentChar := some c
      , currentCharIndex := some (i : Int)
      , «variables» := [("word", .str word.asString), ("char", .str (String.singleton c)), ("index", .num (i : Int))]
      , trieSnapshot := trie.toVisualNode
      , annotations := [{ nodeId := childNode.id, text := "找到 " ++ quoteChar c, position := "top", type := "action" }]
      , action := some "moveToChild" }
      :: searchLoop trie word childNode rest2 (i + 1) (stepIndex + 1) (pathNodes ++ [childNode.id])

/-- `generateSearchSteps(trie, word, startIndex)` (lines 277–412). -/
def generateSearchSteps (trie : Trie) (word : List Char) (startIndex : Nat) :
    List AlgorithmStep :=
  { stepIndex := startIndex
  , description := "开始搜索单词 " ++ quoteWord word
  , codeLineMap := [("java", [17]), ("python", [13]), ("golang", [23]), ("javascript", [17])]
  , highlightedNodes := [trie.root.id]
  , highlightedEdges := []
  , currentChar := none
  , currentCharIndex := none
  , «variables» := [("word", .str word.asString), ("node", .str "root")]
  , trieSnapshot := trie.toVisualNode
  , annotations := [{ nodeId := trie.root.id, text := "搜索 " ++ quoteWord word, position := "top", type := "action" }]
  , action := none }
  :: searchLoop trie word trie.root word 0 (startIndex + 1) [trie.root.id]

/-- The loop of `generateStartsWithSteps` (lines 442–519) plus its
unconditional success step: same traversal as search, but the terminal
step never consults `isEnd`. -/
def startsWithLoop (trie : Trie) (p : List Char) (node : TrieNode) (rest : List Char)
    (i : Nat) (stepIndex : Nat) (pathNodes : List String) : List AlgorithmStep :=
  match rest with
  | [] =>
    [{ stepIndex := stepIndex
     , description := "前缀 " ++ quoteWord p ++ " 存在，返回 true"
     , codeLineMap := [("java", [27]), ("python", [22]), ("golang", [33]), ("javascript", [27])]
     , highlightedNodes := pathNodes
     , highlightedEdges := []
     , currentChar := none
     , currentCharIndex := none
     , «variables» := [("prefix", .str p.asString), ("result", .bool true)]
     , trieSnapshot := trie.toVisualNode
     , annotations := [{ nodeId := node.id, text := "前缀存在 ✓", position := "top", type := "result" }]
     , action := some "returnResult" }]
  | c :: rest2 =>
    match mapGet node.children c with
    | none =>
      [{ stepIndex := stepIndex
       , description := "字符 " ++ quoteChar c ++ " 不存在，前缀不存在"
       , codeLineMap := [("java", [21, 22]), ("python", [17, 18]), ("golang", [27, 28]), ("javascript", [21, 22])]
       , highlightedNodes := pathNodes
       , highlightedEdges := []
       , currentChar := some c
       , currentCharIndex := some (i : Int)
       , «variables» := [("prefix", .str p.asString), ("char", .str (String.singleton c)), ("index", .num (i : Int)), ("found", .bool false)]
       , trieSnapshot := trie.toVisualNode
       , annotations := [{ nodeId := node.id, text := quoteChar c ++ " 不存在 ✗", position := "right", type := "result" }]
       , action := some "returnResult" },
       { stepIndex := stepIndex + 1
       , description := "返回 false，前缀 " ++ quoteWord p ++ " 不存在"
       , codeLineMap := [("java", [27]), ("python", [22]), ("golang", [33]), ("javascript", [27])]
       , highlightedNodes := pathNodes
       , highlightedEdges := []
       , currentChar := none
       , currentCharIndex := none
       , «variables» := [("prefix", .str p.asString), ("result", .bool false)]
       , trieSnapshot := trie.toVisualNode
       , annotations := []
       , action := some "returnResult" }]
    | some childNode =>
      { stepIndex := stepIndex
      , description := "找到字符 " ++ quoteChar c ++ "，移动到子节点"
      , codeLineMap := [("java", [23]), ("python", [19]), ("golang", [29]), ("javascript", [23])]
      , highlightedNodes := pathNodes ++ [childNode.id]
      , highlightedEdges := []
      , currentChar := some c
      , currentCharIndex := some (i : Int)
      , «variables» := [("prefix", .str p.asString), ("char", .str (String.singleton c)), ("index", .num (i : Int))]
      , trieSnapshot := trie.toVisualNode
      , annotations := [{ nodeId := childNode.id, text := "找到 " ++ quoteChar c, position := "top", type := "action" }]
      , action := some "moveToChild" }
      :: startsWithLoop trie p childNode rest2 (i + 1) (stepIndex + 1) (pathNodes ++ [childNode.id])

/-- `generateStartsWithSteps(trie, prefix, startIndex)` (lines 414–545). -/
def generateStartsWithSteps (trie : Trie) (p : List Char) (startIndex : Nat) :
    List AlgorithmStep :=
  { stepIndex := startIndex
  , description := "开始搜索前缀 " ++ quoteWord p
  , codeLineMap := [("java", [26]), ("python", [21]), ("golang", [32]), ("javascript", [26])]
  , highlightedNodes := [trie.root.id]
  , highlightedEdges := []
  , currentChar := none
  , currentCharIndex := none
  , «variables» := [("prefix", .str p.asString), ("node", .str "root")]
  , trieSnapshot := trie.toVisualNode
  , annotations := [{ nodeId := trie.root.id, text := "搜索前缀 " ++ quoteWord p, position := "top", type := "action" }]
  , action := none }
  :: startsWithLoop trie p trie.root p 0 (startIndex + 1) [trie.root.id]

/-- The initial step pushed by `generateSteps` (lines 103–122). -/
def initialStep (trie : Trie) : AlgorithmStep :=
  { stepIndex := 0
  , description := "初始化Trie（前缀树），创建根节点"
  , codeLineMap := [("java", [3, 4, 5]), ("python", [3, 4]), ("golang", [8, 9, 10]), ("javascript", [3, 4, 5])]
  , highlightedNodes := [trie.root.id]
  , highlightedEdges := []
  , currentChar := none
  , currentCharIndex := none
  , «variables» := []
  , trieSnapshot := trie.toVisualNode
  , annotations := [{ nodeId := trie.root.id, text := "根节点", position := "top", type := "info" }]
  , action := none }

/-- The `for (const op of operations)` loop of `generateSteps` (lines
124–140): thread the trie and the running step index, collect the emitted
steps, and return the operation list with `op.result` written for
search/startsWith (the source mutates the operations in place). -/
def runOperations (trie : Trie) (stepIndex : Nat) :
    List Operation → List AlgorithmStep × List Operation × Trie × Nat
  | [] => ([], [], trie, stepIndex)
  | op :: ops =>
    match op.type with
    | .insert =>
      let g := generateInsertSteps trie op.word stepIndex
      let r := runOperations g.2 (stepIndex + g.1.length) ops
      (g.1 ++ r.1, op :: r.2.1, r.2.2.1, r.2.2.2)
    | .search =>
      let searchSteps := generateSearchSteps trie op.word stepIndex
      let op2 := { op with result := some ( Trie.search trie op.word) }
      let r := runOperations trie (stepIndex + searchSteps.length) ops
      (searchSteps ++ r.1, op2 :: r.2.1, r.2.2.1, r.2.2.2)
    | .startsWith =>
      let swSteps := generateStartsWithSteps trie op.word stepIndex
      let op2 := { op with result := some ( Trie.startsWith trie op.word) }
      let r := runOperations trie (stepIndex + swSteps.length) ops
      (swSteps ++ r.1, op2 :: r.2.1, r.2.2.1, r.2.2.2)

/-- `generateSteps(operations)` (lines 97–143): the initial step followed
by every operation's steps, paired with the operation list carrying the
results the source writes back onto it. -/
def generateSteps (operations : List Operation) : List AlgorithmStep × List Operation :=
  let trie := Trie.new
  let r := runOperations trie 1 operations
  (initialStep trie :: r.1, r.2.1)

/-- The action tags the insert loop must emit from the point where `pre`
has been consumed: one `createNode`/`moveToChild` per remaining character
— `moveToChild` exactly when the pre-insert trie `t` already had a node
for the extended path — then the final `markEnd`. -/
def insertActions (t : Trie) : List Char → List Char → List (Option String)
  | _, [] => [some "markEnd"]
  | pre, c :: rest =>
    some (if Trie.startsWith t (pre ++ [c]) then "moveToChild" else "createNode")
      :: insertActions t (pre ++ [c]) rest

/-- The 0-based index of the first character of `rest` whose child edge is
missing when walking from `node`, if any (the point where search and
startsWith short-circuit). -/
def firstMiss (node : TrieNode) : List Char → Option Nat
  | [] => none
  | c :: rest =>
    match mapGet node.children c with
    | none => some 0
    | some child => (firstMiss child rest).map (· + 1)

/-- Written from the spec sentences about `Operation.result`: an insert
leaves `result` unset; a search/startsWith records the boolean the engine
computes on the trie state at that point (all earlier inserts applied). -/
def recordResults (t : Trie) : List Operation → List Operation
  | [] => []
  | op :: ops =>
    match op.type with
    | .insert => op :: recordResults (t.insert op.word) ops
    | .search => { op with result := some ( Trie.search t op.word) } :: recordResults t ops
    | .startsWith =>
      { op with result := some ( Trie.startsWith t op.word) } :: recordResults t ops

/-! Basic lemmas about the engine. -/

theorem followPath_eq (w : List Char) : ∀ node, followPath node w = searchPrefixAux node w := by
  induction w with
  | nil => intro node; rfl
  | cons c rest ih =>
    intro node
    simp only [followPath, searchPrefixAux]
    cases mapGet node.children c with
    | none => rfl
    | some child => exact ih child

theorem TrieNode.withChildren_children (n : TrieNode) (a : List (Char × TrieNode)) :
    (n.withChildren a).children = a := by
  cases n; rfl

theorem TrieNode.withChildren_withChildren (n : TrieNode) (a b : List (Char × TrieNode)) :
    (n.withChildren a).withChildren b = n.withChildren b := by
  cases n; rfl

theorem TrieNode.withChildren_self (n : TrieNode) : n.withChildren n.children = n := by
  cases n; rfl

theorem TrieNode.withEnd_withEnd (n : TrieNode) (a b : Bool) :
    (n.withEnd a).withEnd b = n.withEnd b := by
  cases n; rfl

theorem TrieNode.isEnd_withEnd (n : TrieNode) (b : Bool) : (n.withEnd b).isEnd = b := by
  cases n; rfl

theorem mapGet_cons_of_eq (p : Char × TrieNode) (rest : List (Char × TrieNode)) (c : Char)
    (h : (p.1 == c) = true) : mapGet (p :: rest) c = some p.2 := by
  simp [mapGet, List.find?, h]

theorem mapGet_cons_of_ne (p : Char × TrieNode) (rest : List (Char × TrieNode)) (c : Char)
    (h : (p.1 == c) = false) : mapGet (p :: rest) c = mapGet rest c := by
  simp [mapGet, List.find?, h]

theorem mapSet_cons_of_eq (p : Char × TrieNode) (rest : List (Char × TrieNode)) (c : Char)
    (v : TrieNode) (h : (p.1 == c) = true) : mapSet (p :: rest) c v = (c, v) :: rest := by
  simp [mapSet, h]

theorem mapSet_cons_of_ne (p : Char × TrieNode) (rest : List (Char × TrieNode)) (c : Char)
    (v : TrieNode) (h : (p.1 == c) = false) : mapSet (p :: rest) c v = p :: mapSet rest c v := by
  simp [mapSet, h]

theorem mapGet_mapSet_same (m : List (Char × TrieNode)) (c : Char) (v : TrieNode) :
    mapGet (mapSet m c v) c = some v := by
  induction m with
  | nil => simp [mapGet, mapSet, List.find?]
  | cons p rest ih =>
    by_cases h : (p.1 == c) = true
    · rw [mapSet_cons_of_eq p rest c v h]
      exact mapGet_cons_of_eq (c, v) rest c (by simp)
    · rw [mapSet_cons_of_ne p rest c v (by simpa using h),
        mapGet_cons_of_ne p (mapSet rest c v) c (by simpa using h)]
      exact ih

theorem mapSet_mapSet_same (m : List (Char × TrieNode)) (c : Char) (v v2 : TrieNode) :
    mapSet (mapSet m c v) c v2 = mapSet m c v2 := by
  induction m with
  | nil => simp [mapSet]
  | cons p rest ih =>
    by_cases h : p.1 = c
    · simp [mapSet, h]
    · simp [mapSet, h, ih]

/-! C1 and C2: the query operations against the spec's path reading. -/

/-- C1. `search(word)` returns true iff a node exists at the end of the
full character path of `word` from the root and that node's `isEnd` flag
is true. -/
theorem search_iff_path (t : Trie) (w : List Char) :
    Trie.search t w = true ↔ ∃ n, followPath t.root w = some n ∧ n.isEnd = true := by
  simp only [ Trie.search, Trie.searchPrefix, followPath_eq]
  cases searchPrefixAux t.root w with
  | none => simp
  | some n => simp

/-- C2. `startsWith(p)` returns true iff a node exists at the end of the
full character path of `p` from the root, regardless of its `isEnd`. -/
theorem startsWith_iff_path (t : Trie) (p : List Char) :
    Trie.startsWith t p = true ↔ ∃ n, followPath t.root p = some n := by
  simp only [ Trie.startsWith, Trie.searchPrefix, followPath_eq]
  cases searchPrefixAux t.root p with
  | none => simp
  | some n => simp

/-! Lemmas about `insert` followed by the queries. -/

theorem insertAux_search (w : List Char) :
    ∀ node ctr, ∃ m, searchPrefixAux (insertAux node w ctr).1 w = some m ∧ m.isEnd = true := by
  induction w with
  | nil =>
    intro node ctr
    exact ⟨node.withEnd true, rfl, TrieNode.isEnd_withEnd node true⟩
  | cons c rest ih =>
    intro node ctr
    simp only [insertAux]
    cases hg : mapGet node.children c with
    | some child =>
      obtain ⟨m, hm, he⟩ := ih child ctr
      refine ⟨m, ?_, he⟩
      simp [searchPrefixAux, TrieNode.withChildren_children, mapGet_mapSet_same, hm]
    | none =>
      obtain ⟨m, hm, he⟩ := ih (createTrieNode (String.singleton c) (node.depth + 1) ctr).1 ctr.succ
      refine ⟨m, ?_, he⟩
      simp [searchPrefixAux, TrieNode.withChildren_children, mapGet_mapSet_same, createTrieNode,
        generateNodeId] at hm ⊢
      exact hm

theorem insertAux_take (w : List Char) :
    ∀ n node ctr, ( searchPrefixAux (insertAux node w ctr).1 (w.take n)).isSome := by
  induction w with
  | nil =>
    intro n node ctr
    simp [searchPrefixAux]
  | cons c rest ih =>
    intro n node ctr
    cases n with
    | zero => simp [searchPrefixAux]
    | succ n =>
      simp only [List.take, insertAux]
      cases hg : mapGet node.children c with
      | some child =>
        simp only [searchPrefixAux, TrieNode.withChildren_children, mapGet_mapSet_same]
        exact ih n child ctr
      | none =>
        simp only [searchPrefixAux, TrieNode.withChildren_children, mapGet_mapSet_same]
        exact ih n _ _

/-- C9. After `insert(w)`, `startsWith(p)` is true for every prefix `p` of
`w` (including `w` itself); and for every trie and every `w`,
`search(w) = true` implies `startsWith(w) = true`. -/
theorem startsWith_after_insert (t : Trie) (w p : List Char) (hp : p <+: w) :
    Trie.startsWith (t.insert w) p = true ∧
      (∀ t2 : Trie, ∀ v : List Char, Trie.search t2 v = true → Trie.startsWith t2 v = true) := by
  constructor
  · obtain ⟨s, rfl⟩ := hp
    have h := insertAux_take (p ++ s) p.length t.root t.ctr
    simpa [ Trie.startsWith, Trie.searchPrefix, Trie.insert, List.take_left] using h
  · intro t2 v h
    simp only [ Trie.search, Trie.startsWith] at *
    cases hs : Trie.searchPrefix t2 v with
    | none => rw [hs] at h; exact absurd h (by simp)
    | some n => simp

/-- Witness for `startsWith_after_insert` at `t = Trie.new`, `w = "ab"`,
`p = "a"`. -/
theorem startsWith_after_insert_witness :
    (['a'] <+: ['a', 'b']) ∧
      (Trie.startsWith (Trie.new.insert ['a', 'b']) ['a'] = true ∧
        (∀ t2 : Trie, ∀ v : List Char, Trie.search t2 v = true → Trie.startsWith t2 v = true)) :=
  ⟨⟨['b'], rfl⟩, startsWith_after_insert Trie.new ['a', 'b'] ['a'] ⟨['b'], rfl⟩⟩

/-- C10. On every trie state, `startsWith("")` returns true and
`search("")` returns exactly the root's `isEnd` flag; in particular the
empty trie accepts both queries (no rejection of the empty string). -/
theorem empty_string_queries (t : Trie) :
    Trie.startsWith t [] = true ∧ Trie.search t [] = t.root.isEnd ∧
      Trie.startsWith Trie.new [] = true ∧ Trie.search Trie.new [] = false := by
  refine ⟨rfl, ?_, rfl, rfl⟩
  simp only [ Trie.search, Trie.searchPrefix, searchPrefixAux]

theorem insertAux_idem (w : List Char) :
    ∀ node ctr k, insertAux (insertAux node w ctr).1 w k = ((insertAux node w ctr).1, k) := by
  induction w with
  | nil =>
    intro node ctr k
    simp [insertAux, TrieNode.withEnd_withEnd]
  | cons c rest ih =>
    intro node ctr k
    cases hg : mapGet node.children c with
    | some child =>
      simp only [insertAux, hg, TrieNode.withChildren_children, mapGet_mapSet_same]
      rw [ih child ctr k]
      simp only [TrieNode.withChildren_children, mapSet_mapSet_same,
        TrieNode.withChildren_withChildren, TrieNode.withChildren_self]
    | none =>
      simp only [insertAux, hg, TrieNode.withChildren_children, mapGet_mapSet_same]
      rw [ih (createTrieNode (String.singleton c) (node.depth + 1) ctr).1
        (createTrieNode (String.singleton c) (node.depth + 1) ctr).2 k]
      simp only [TrieNode.withChildren_children, mapSet_mapSet_same,
        TrieNode.withChildren_withChildren, TrieNode.withChildren_self]

/-- The final trie returned by the insert step loop is the `rebuild` of
what the bare engine insert computes on the current subtree. -/
theorem insertLoop_snd (rest : List Char) :
    ∀ (word : List Char) (rebuild : TrieNode → Nat → Trie) node ctr i idx path,
      (insertLoop word rebuild node ctr rest i idx path).2 =
        rebuild (insertAux node rest ctr).1 (insertAux node rest ctr).2 := by
  induction rest with
  | nil =>
    intro word rebuild node ctr i idx path
    simp [insertLoop, insertAux]
  | cons c rest2 ih =>
    intro word rebuild node ctr i idx path
    cases hg : mapGet node.children c with
    | some child =>
      simp only [insertLoop, hg, insertAux]
      rw [ih]
    | none =>
      simp only [insertLoop, hg, insertAux]
      rw [ih]
      simp only [TrieNode.withChildren_children, mapSet_mapSet_same,
        TrieNode.withChildren_withChildren]

/-- The trie returned by `generateInsertSteps` equals what `Trie.insert`
computes: the step generator performs the same insertion. -/
theorem generateInsertSteps_snd (t : Trie) (w : List Char) (idx : Nat) :
    (generateInsertSteps t w idx).2 = t.insert w := by
  simp only [generateInsertSteps, Trie.insert]
  rw [insertLoop_snd]

/-- The per-character loop of the insert step generator always emits one
step per remaining character plus the mark-end step. -/
theorem insertLoop_length (rest : List Char) :
    ∀ word rebuild node ctr i idx path,
      (insertLoop word rebuild node ctr rest i idx path).1.length = rest.length + 1 := by
  induction rest with
  | nil =>
    intro word rebuild node ctr i idx path
    simp [insertLoop]
  | cons c rest2 ih =>
    intro word rebuild node ctr i idx path
    cases hg : mapGet node.children c with
    | some child =>
      simp only [insertLoop, hg, List.length_cons]
      rw [ih]
    | none =>
      simp only [insertLoop, hg, List.length_cons]
      rw [ih]

/-- An insert's step list always has length `L + 2`. -/
theorem generateInsertSteps_length (t : Trie) (w : List Char) (idx : Nat) :
    (generateInsertSteps t w idx).1.length = w.length + 2 := by
  simp only [generateInsertSteps, List.length_cons]
  rw [insertLoop_length]

/-- C8. Inserting the same non-empty word twice yields the identical trie
(same shape, ids and `isEnd` flags) as inserting it once; the second
insert still emits `L + 2` steps; and `search(w)` is true after either one
or two inserts. -/
theorem insert_idempotent (t : Trie) (w : List Char) (idx : Nat) (_hw : w ≠ []) :
    (t.insert w).insert w = t.insert w ∧
      (generateInsertSteps (t.insert w) w idx).1.length = w.length + 2 ∧
      Trie.search (t.insert w) w = true ∧
      Trie.search ((t.insert w).insert w) w = true := by
  have hidem : (t.insert w).insert w = t.insert w := by
    simp only [ Trie.insert]
    cases h1 : insertAux t.root w t.ctr with
    | mk r1 c1 =>
      have := insertAux_idem w t.root t.ctr c1
      rw [h1] at this
      simp only [this]
  have hsearch : Trie.search (t.insert w) w = true := by
    obtain ⟨m, hm, he⟩ := insertAux_search w t.root t.ctr
    simp [ Trie.search, Trie.searchPrefix, Trie.insert, hm, he]
  exact ⟨hidem, generateInsertSteps_length (t.insert w) w idx,
    hsearch, by rw [hidem]; exact hsearch⟩

/-- Witness for `insert_idempotent` at `t = Trie.new`, `w = "ab"`,
`idx = 3`. -/
theorem insert_idempotent_witness :
    (['a', 'b'] : List Char) ≠ [] ∧
      ((Trie.new.insert ['a', 'b']).insert ['a', 'b'] = Trie.new.insert ['a', 'b'] ∧
        (generateInsertSteps (Trie.new.insert ['a', 'b']) ['a', 'b'] 3).1.length =
          (['a', 'b'] : List Char).length + 2 ∧
        Trie.search (Trie.new.insert ['a', 'b']) ['a', 'b'] = true ∧
        Trie.search ((Trie.new.insert ['a', 'b']).insert ['a', 'b']) ['a', 'b'] = true) :=
  ⟨by simp, insert_idempotent Trie.new ['a', 'b'] 3 (by simp)⟩

theorem searchPrefixAux_append (l1 : List Char) :
    ∀ (l2 : List Char) (node : TrieNode),
      searchPrefixAux node (l1 ++ l2) =
        ( searchPrefixAux node l1).bind (fun n => searchPrefixAux n l2) := by
  induction l1 with
  | nil => intro l2 node; rfl
  | cons c rest ih =>
    intro l2 node
    simp only [List.cons_append, searchPrefixAux]
    cases mapGet node.children c with
    | none => rfl
    | some child => exact ih l2 child

theorem insertLoop_actions (rest : List Char) :
    ∀ (t : Trie) (pre word : List Char) (rebuild : TrieNode → Nat → Trie) node ctr idx path,
      ( searchPrefixAux t.root pre = some node ∨
        (node.children = [] ∧ searchPrefixAux t.root pre = none)) →
      ((insertLoop word rebuild node ctr rest pre.length idx path).1.map (fun s => s.action)) =
        insertActions t pre rest := by
  induction rest with
  | nil =>
    intro t pre word rebuild node ctr idx path hinv
    simp [insertLoop, insertActions]
  | cons c rest2 ih =>
    intro t pre word rebuild node ctr idx path hinv
    cases hg : mapGet node.children c with
    | some child =>
      have hroot : searchPrefixAux t.root (pre ++ [c]) = some child := by
        cases hinv with
        | inl h => simp [searchPrefixAux_append, h, searchPrefixAux, hg]
        | inr h => rw [h.1] at hg; simp [mapGet, List.find?] at hg
      have hsw : Trie.startsWith t (pre ++ [c]) = true := by
        simp [ Trie.startsWith, Trie.searchPrefix, hroot]
      have hrec := ih t (pre ++ [c]) word
        (fun nd k => rebuild (node.withChildren (mapSet node.children c nd)) k)
        child ctr (idx + 1) (path ++ [child.id]) (Or.inl hroot)
      simp only [insertLoop, hg, List.map_cons, insertActions, hsw, if_true]
      simpa using hrec
    | none =>
      have hroot : searchPrefixAux t.root (pre ++ [c]) = none := by
        cases hinv with
        | inl h => simp [searchPrefixAux_append, h, searchPrefixAux, hg]
        | inr h => simp [searchPrefixAux_append, h.2]
      have hsw : Trie.startsWith t (pre ++ [c]) = false := by
        simp [ Trie.startsWith, Trie.searchPrefix, hroot]
      have hrec := ih t (pre ++ [c]) word
        (fun nd k =>
          rebuild
            ((node.withChildren
                (mapSet node.children c
                  (createTrieNode (String.singleton c) (node.depth + 1) ctr).1)).withChildren
              (mapSet
                (node.withChildren
                  (mapSet node.children c
                    (createTrieNode (String.singleton c) (node.depth + 1) ctr).1)).children
                c nd))
            k)
        (createTrieNode (String.singleton c) (node.depth + 1) ctr).1
        (createTrieNode (String.singleton c) (node.depth + 1) ctr).2 (idx + 1)
        (path ++ [TrieNode.id (createTrieNode (String.singleton c) (node.depth + 1) ctr).1])
        (Or.inr ⟨rfl, hroot⟩)
      simp only [insertLoop, hg, List.map_cons, insertActions, hsw, if_false, Bool.false_eq_true]
      simpa using hrec

theorem insertLoop_charIndex (rest : List Char) :
    ∀ word rebuild node ctr i idx path,
      ((insertLoop word rebuild node ctr rest i idx path).1.map (fun s => s.currentCharIndex)) =
        (List.range' i rest.length).map (fun n : Nat => some (n : Int)) ++ [none] := by
  induction rest with
  | nil =>
    intro word rebuild node ctr i idx path
    simp [insertLoop]
  | cons c rest2 ih =>
    intro word rebuild node ctr i idx path
    cases hg : mapGet node.children c with
    | some child =>
      simp only [insertLoop, hg, List.map_cons, List.length_cons, List.range'_succ, List.cons_append]
      rw [ih]
    | none =>
      simp only [insertLoop, hg, List.map_cons, List.length_cons, List.range'_succ, List.cons_append]
      rw [ih]

theorem insertLoop_stepIndex (rest : List Char) :
    ∀ word rebuild node ctr i idx path,
      ((insertLoop word rebuild node ctr rest i idx path).1.map (fun s => s.stepIndex)) =
        List.range' idx (rest.length + 1) := by
  induction rest with
  | nil =>
    intro word rebuild node ctr i idx path
    simp [insertLoop]
  | cons c rest2 ih =>
    intro word rebuild node ctr i idx path
    cases hg : mapGet node.children c with
    | some child =>
      simp only [insertLoop, hg, List.map_cons, List.length_cons]
      rw [ih]
      exact (List.range'_succ idx (rest2.length + 1) 1).symm
    | none =>
      simp only [insertLoop, hg, List.map_cons, List.length_cons]
      rw [ih]
      exact (List.range'_succ idx (rest2.length + 1) 1).symm

theorem insertLoop_last (rest : List Char) :
    ∀ word rebuild node ctr i idx path,
      (((insertLoop word rebuild node ctr rest i idx path).1[rest.length]?).map
          (fun s => (s.action, s.trieSnapshot))) =
        some (some "markEnd",
          Trie.toVisualNode (insertLoop word rebuild node ctr rest i idx path).2) := by
  induction rest with
  | nil =>
    intro word rebuild node ctr i idx path
    simp [insertLoop]
  | cons c rest2 ih =>
    intro word rebuild node ctr i idx path
    cases hg : mapGet node.children c with
    | some child =>
      simp only [insertLoop, hg, List.length_cons, List.getElem?_cons_succ]
      exact ih word _ child ctr (i + 1) (idx + 1) (path ++ [child.id])
    | none =>
      simp only [insertLoop, hg, List.length_cons, List.getElem?_cons_succ]
      exact ih word _ _ _ (i + 1) (idx + 1) _

/-- C3. An insert of a non-empty word of length `L` emits exactly `L + 2`
steps, in order: a begin step (no action tag, root highlighted,
`currentCharIndex = -1`), then per character position `i` exactly one step
tagged `createNode` (when the pre-insert trie had no node for the path
through position `i`, i.e. the child was absent when reached) or
`moveToChild` (when it did), with `currentCharIndex = i`, then one final
`markEnd` step whose snapshot is the fully inserted trie (taken after
`isEnd := true`); the insert never short-circuits. -/
theorem insert_step_shape (t : Trie) (w : List Char) (idx : Nat) (_hw : w ≠ []) :
    (generateInsertSteps t w idx).1.length = w.length + 2 ∧
      ((generateInsertSteps t w idx).1.map (fun s => s.action)) = none :: insertActions t [] w ∧
      ((generateInsertSteps t w idx).1.map (fun s => s.currentCharIndex)) =
        some (-1) :: ((List.range w.length).map (fun n : Nat => some (n : Int)) ++ [none]) ∧
      (((generateInsertSteps t w idx).1[0]?).map (fun s => (s.action, s.highlightedNodes))) =
        some (none, [t.root.id]) ∧
      (((generateInsertSteps t w idx).1[w.length + 1]?).map
          (fun s => (s.action, s.trieSnapshot))) =
        some (some "markEnd", Trie.toVisualNode (t.insert w)) := by
  refine ⟨generateInsertSteps_length t w idx, ?_, ?_, ?_, ?_⟩
  · have h := insertLoop_actions w t [] w (fun nd k => ⟨nd, k⟩) t.root t.ctr (idx + 1) [t.root.id]
      (Or.inl rfl)
    simp only [List.length_nil] at h
    simp only [generateInsertSteps, List.map_cons]
    rw [h]
  · have h := insertLoop_charIndex w w (fun nd k => ⟨nd, k⟩) t.root t.ctr 0 (idx + 1) [t.root.id]
    simp only [generateInsertSteps, List.map_cons]
    rw [h, List.range_eq_range']
  · simp [generateInsertSteps]
  · have h := insertLoop_last w w (fun nd k => ⟨nd, k⟩) t.root t.ctr 0 (idx + 1) [t.root.id]
    have h2 : (insertLoop w (fun nd k => ⟨nd, k⟩) t.root t.ctr w 0 (idx + 1) [t.root.id]).2 =
        t.insert w := by
      have h3 := generateInsertSteps_snd t w idx
      simpa [generateInsertSteps] using h3
    rw [h2] at h
    simp only [generateInsertSteps, List.getElem?_cons_succ]
    exact h

/-- Witness for `insert_step_shape` at `t = Trie.new`, `w = "ab"`,
`idx = 1`. -/
theorem insert_step_shape_witness :
    (['a', 'b'] : List Char) ≠ [] ∧
      ((generateInsertSteps Trie.new ['a', 'b'] 1).1.length = (['a', 'b'] : List Char).length + 2 ∧
        ((generateInsertSteps Trie.new ['a', 'b'] 1).1.map (fun s => s.action)) =
          none :: insertActions Trie.new [] ['a', 'b'] ∧
        ((generateInsertSteps Trie.new ['a', 'b'] 1).1.map (fun s => s.currentCharIndex)) =
          some (-1) :: ((List.range (['a', 'b'] : List Char).length).map
            (fun n : Nat => some (n : Int)) ++ [none]) ∧
        (((generateInsertSteps Trie.new ['a', 'b'] 1).1[0]?).map
            (fun s => (s.action, s.highlightedNodes))) =
          some (none, [Trie.new.root.id]) ∧
        (((generateInsertSteps Trie.new ['a', 'b'] 1).1[(['a', 'b'] : List Char).length + 1]?).map
            (fun s => (s.action, s.trieSnapshot))) =
          some (some "markEnd", Trie.toVisualNode (Trie.new.insert ['a', 'b']))) :=
  ⟨by simp, insert_step_shape Trie.new ['a', 'b'] 1 (by simp)⟩

theorem searchLoop_stepIndex (rest : List Char) :
    ∀ trie word node i idx path,
      ((searchLoop trie word node rest i idx path).map (fun s => s.stepIndex)) =
        List.range' idx (searchLoop trie word node rest i idx path).length := by
  induction rest with
  | nil =>
    intro trie word node i idx path
    simp [searchLoop]
  | cons c rest2 ih =>
    intro trie word node i idx path
    cases hg : mapGet node.children c with
    | none => simp [searchLoop, hg, List.range'_succ]
    | some child =>
      simp only [searchLoop, hg, List.map_cons, List.length_cons]
      rw [ih, ← List.range'_succ]

theorem startsWithLoop_stepIndex (rest : List Char) :
    ∀ trie p node i idx path,
      ((startsWithLoop trie p node rest i idx path).map (fun s => s.stepIndex)) =
        List.range' idx (startsWithLoop trie p node rest i idx path).length := by
  induction rest with
  | nil =>
    intro trie p node i idx path
    simp [startsWithLoop]
  | cons c rest2 ih =>
    intro trie p node i idx path
    cases hg : mapGet node.children c with
    | none => simp [startsWithLoop, hg, List.range'_succ]
    | some child =>
      simp only [startsWithLoop, hg, List.map_cons, List.length_cons]
      rw [ih, ← List.range'_succ]

theorem generateInsertSteps_stepIndex (t : Trie) (w : List Char) (idx : Nat) :
    ((generateInsertSteps t w idx).1.map (fun s => s.stepIndex)) =
      List.range' idx ((generateInsertSteps t w idx).1.length) := by
  simp only [generateInsertSteps, List.map_cons, List.length_cons]
  rw [insertLoop_stepIndex, insertLoop_length, ← List.range'_succ]

theorem generateSearchSteps_stepIndex (t : Trie) (w : List Char) (idx : Nat) :
    ((generateSearchSteps t w idx).map (fun s => s.stepIndex)) =
      List.range' idx ((generateSearchSteps t w idx).length) := by
  simp only [generateSearchSteps, List.map_cons, List.length_cons]
  rw [searchLoop_stepIndex, ← List.range'_succ]

theorem generateStartsWithSteps_stepIndex (t : Trie) (p : List Char) (idx : Nat) :
    ((generateStartsWithSteps t p idx).map (fun s => s.stepIndex)) =
      List.range' idx ((generateStartsWithSteps t p idx).length) := by
  simp only [generateStartsWithSteps, List.map_cons, List.length_cons]
  rw [startsWithLoop_stepIndex, ← List.range'_succ]

theorem runOperations_stepIndex (ops : List Operation) :
    ∀ trie idx,
      ((runOperations trie idx ops).1.map (fun s => s.stepIndex)) =
        List.range' idx ((runOperations trie idx ops).1.length) := by
  induction ops with
  | nil =>
    intro trie idx
    simp [runOperations]
  | cons op ops2 ih =>
    intro trie idx
    cases hty : op.type with
    | insert =>
      simp only [runOperations, hty, List.map_append, List.length_append]
      rw [generateInsertSteps_stepIndex, ih, generateInsertSteps_length,
        List.range'_append_1]
      exact congrArg (fun n => List.range' idx n 1) (Nat.add_comm _ _)
    | search =>
      simp only [runOperations, hty, List.map_append, List.length_append]
      rw [generateSearchSteps_stepIndex, ih, List.range'_append_1]
      exact congrArg (fun n => List.range' idx n 1) (Nat.add_comm _ _)
    | startsWith =>
      simp only [runOperations, hty, List.map_append, List.length_append]
      rw [generateStartsWithSteps_stepIndex, ih, List.range'_append_1]
      exact congrArg (fun n => List.range' idx n 1) (Nat.add_comm _ _)

/-- C5. Across any operation list, the emitted `stepIndex` values are
exactly `0, 1, ..., N - 1` (`N` = total step count): contiguous, strictly
increasing, never reset between operations. -/
theorem step_index_contiguous (ops : List Operation) :
    ((generateSteps ops).1.map (fun s => s.stepIndex)) =
      List.range ((generateSteps ops).1.length) := by
  simp only [generateSteps, List.map_cons, List.length_cons, List.range_eq_range', initialStep]
  rw [runOperations_stepIndex]
  exact (List.range'_succ 0 _ 1).symm

theorem searchLoop_length (rest : List Char) :
    ∀ trie word node i idx path,
      (searchLoop trie word node rest i idx path).length =
        (match firstMiss node rest with
          | none => rest.length + 1
          | some j => j + 2) := by
  induction rest with
  | nil =>
    intro trie word node i idx path
    simp [searchLoop, firstMiss]
  | cons c rest2 ih =>
    intro trie word node i idx path
    cases hg : mapGet node.children c with
    | none => simp [searchLoop, hg, firstMiss]
    | some child =>
      simp only [searchLoop, hg, List.length_cons, firstMiss]
      rw [ih]
      cases hfm : firstMiss child rest2 with
      | none => simp [hfm]
      | some j => simp [hfm]

theorem startsWithLoop_length (rest : List Char) :
    ∀ trie p node i idx path,
      (startsWithLoop trie p node rest i idx path).length =
        (match firstMiss node rest with
          | none => rest.length + 1
          | some j => j + 2) := by
  induction rest with
  | nil =>
    intro trie p node i idx path
    simp [startsWithLoop, firstMiss]
  | cons c rest2 ih =>
    intro trie p node i idx path
    cases hg : mapGet node.children c with
    | none => simp [startsWithLoop, hg, firstMiss]
    | some child =>
      simp only [startsWithLoop, hg, List.length_cons, firstMiss]
      rw [ih]
      cases hfm : firstMiss child rest2 with
      | none => simp [hfm]
      | some j => simp [hfm]

theorem runOperations_ops (ops : List Operation) :
    ∀ trie idx, (runOperations trie idx ops).2.1 = recordResults trie ops := by
  induction ops with
  | nil => intro trie idx; rfl
  | cons op ops2 ih =>
    intro trie idx
    cases hty : op.type with
    | insert =>
      simp only [runOperations, hty, recordResults]
      rw [generateInsertSteps_snd, ih]
    | search =>
      simp only [runOperations, hty, recordResults]
      rw [ih]
    | startsWith =>
      simp only [runOperations, hty, recordResults]
      rw [ih]

theorem searchLoop_reports (rest : List Char) :
    ∀ trie word node i idx path,
      ∃ s : AlgorithmStep,
        (searchLoop trie word node rest i idx path).getLast? = some s ∧
          ("result", VarValue.bool (match searchPrefixAux node rest with
            | some n => n.isEnd
            | none => false)) ∈ s.«variables» := by
  induction rest with
  | nil =>
    intro trie word node i idx path
    refine ⟨_, rfl, ?_⟩
    simp [searchLoop, searchPrefixAux]
  | cons c rest2 ih =>
    intro trie word node i idx path
    cases hg : mapGet node.children c with
    | none =>
      simp only [searchLoop, hg]
      refine ⟨_, rfl, ?_⟩
      simp [searchPrefixAux, hg]
    | some child =>
      obtain ⟨s, hs, hmem⟩ := ih trie word child (i + 1) (idx + 1) (path ++ [child.id])
      refine ⟨s, ?_, ?_⟩
      · simp only [searchLoop, hg]
        cases hrec : searchLoop trie word child rest2 (i + 1) (idx + 1) (path ++ [child.id]) with
        | nil => rw [hrec] at hs; simp at hs
        | cons b tl =>
          rw [hrec] at hs
          simpa [List.getLast?_cons_cons] using hs
      · simpa [searchPrefixAux, hg] using hmem

theorem startsWithLoop_reports (rest : List Char) :
    ∀ trie p node i idx path,
      ∃ s : AlgorithmStep,
        (startsWithLoop trie p node rest i idx path).getLast? = some s ∧
          ("result", VarValue.bool ( searchPrefixAux node rest).isSome) ∈ s.«variables» := by
  induction rest with
  | nil =>
    intro trie p node i idx path
    refine ⟨_, rfl, ?_⟩
    simp [startsWithLoop, searchPrefixAux]
  | cons c rest2 ih =>
    intro trie p node i idx path
    cases hg : mapGet node.children c with
    | none =>
      simp only [startsWithLoop, hg]
      refine ⟨_, rfl, ?_⟩
      simp [searchPrefixAux, hg]
    | some child =>
      obtain ⟨s, hs, hmem⟩ := ih trie p child (i + 1) (idx + 1) (path ++ [child.id])
      refine ⟨s, ?_, ?_⟩
      · simp only [startsWithLoop, hg]
        cases hrec : startsWithLoop trie p child rest2 (i + 1) (idx + 1) (path ++ [child.id]) with
        | nil => rw [hrec] at hs; simp at hs
        | cons b tl =>
          rw [hrec] at hs
          simpa [List.getLast?_cons_cons] using hs
      · simpa [searchPrefixAux, hg] using hmem

/-- C6. After `generateSteps`, insert operations keep their `result` unset
while each search/startsWith operation's `result` is the boolean the
engine computes on the trie state at that point (`recordResults`); that
boolean is the same one reported in the `"result"` display variable of the
operation's terminal emitted step; and on
`[insert "a", insert "ab", search "a", search "ab", search "abc"]` the
recorded results are `[—, —, true, true, false]`. -/
theorem results_consistent (ops : List Operation) :
    (generateSteps ops).2 = recordResults Trie.new ops ∧
      (∀ (t : Trie) (w : List Char) (idx : Nat),
        ∃ s, (generateSearchSteps t w idx).getLast? = some s ∧
          ("result", VarValue.bool ( Trie.search t w)) ∈ s.«variables») ∧
      (∀ (t : Trie) (p : List Char) (idx : Nat),
        ∃ s, (generateStartsWithSteps t p idx).getLast? = some s ∧
          ("result", VarValue.bool ( Trie.startsWith t p)) ∈ s.«variables») ∧
      ((generateSteps [⟨.insert, ['a'], none⟩, ⟨.insert, ['a', 'b'], none⟩,
          ⟨.search, ['a'], none⟩, ⟨.search, ['a', 'b'], none⟩,
          ⟨.search, ['a', 'b', 'c'], none⟩]).2.map (fun o => o.result)) =
        [none, none, some true, some true, some false] := by
  refine ⟨?_, ?_, ?_, ?_⟩
  · simp only [generateSteps]
    exact runOperations_ops ops Trie.new 1
  · intro t w idx
    obtain ⟨s, hs, hmem⟩ := searchLoop_reports w t w t.root 0 (idx + 1) [t.root.id]
    refine ⟨s, ?_, ?_⟩
    · simp only [generateSearchSteps]
      cases hrec : searchLoop t w t.root w 0 (idx + 1) [t.root.id] with
      | nil => rw [hrec] at hs; simp at hs
      | cons b tl =>
        rw [hrec] at hs
        simpa [List.getLast?_cons_cons] using hs
    · simpa [ Trie.search, Trie.searchPrefix] using hmem
  · intro t p idx
    obtain ⟨s, hs, hmem⟩ := startsWithLoop_reports p t p t.root 0 (idx + 1) [t.root.id]
    refine ⟨s, ?_, ?_⟩
    · simp only [generateStartsWithSteps]
      cases hrec : startsWithLoop t p t.root p 0 (idx + 1) [t.root.id] with
      | nil => rw [hrec] at hs; simp at hs
      | cons b tl =>
        rw [hrec] at hs
        simpa [List.getLast?_cons_cons] using hs
    · simpa [ Trie.startsWith, Trie.searchPrefix] using hmem
  · rfl

/-- C4 counterexample: on the empty trie, `search("cat")` misses at index
0, yet the search emits 3 steps (begin, "character not found", "return
false"), not the claimed `0 + 2 = 2`; the whole list
`[search("cat")]` yields 4 steps (with the initialization step); the miss
step's description does indicate failure at character `c`, and the
recorded result is `false`. -/
theorem search_miss_count_counterexample :
    firstMiss Trie.new.root ['c', 'a', 't'] = some 0 ∧
      (generateSearchSteps Trie.new ['c', 'a', 't'] 1).length = 3 ∧
      ¬((generateSearchSteps Trie.new ['c', 'a', 't'] 1).length = 0 + 2) ∧
      (generateSteps [⟨.search, ['c', 'a', 't'], none⟩]).1.length = 4 ∧
      (((generateSteps [⟨.search, ['c', 'a', 't'], none⟩]).1[2]?).map (fun s => s.description)) =
        some ("字符 " ++ quoteChar 'c' ++ " 不存在，搜索失败") ∧
      ((generateSteps [⟨.search, ['c', 'a', 't'], none⟩]).2.map (fun o => o.result)) =
        [some false] :=
  ⟨rfl, rfl, by decide, rfl, rfl, rfl⟩

/-- C4 (amended): a search or startsWith whose traversal first misses at
0-based index `i` stops processing the remaining characters and emits
exactly `i + 3` steps (begin + `i` moves + "character not found" +
"return false"); with no miss it emits `L + 2`. -/
theorem search_short_circuit_length (t : Trie) (w : List Char) (idx : Nat) :
    (generateSearchSteps t w idx).length =
      (match firstMiss t.root w with
        | none => w.length + 2
        | some i => i + 3) ∧
      (generateStartsWithSteps t w idx).length =
        (match firstMiss t.root w with
          | none => w.length + 2
          | some i => i + 3) := by
  constructor
  · simp only [generateSearchSteps, List.length_cons]
    rw [searchLoop_length]
    cases hfm : firstMiss t.root w with
    | none => simp
    | some i => simp
  · simp only [generateStartsWithSteps, List.length_cons]
    rw [startsWithLoop_length]
    cases hfm : firstMiss t.root w with
    | none => simp
    | some i => simp

theorem runOperations_append (l1 : List Operation) :
    ∀ (l2 : List Operation) (trie : Trie) (idx : Nat),
      (runOperations trie idx (l1 ++ l2)).1 =
        (runOperations trie idx l1).1 ++
          (runOperations ((runOperations trie idx l1).2.2.1)
            ((runOperations trie idx l1).2.2.2) l2).1 := by
  induction l1 with
  | nil =>
    intro l2 trie idx
    simp [runOperations]
  | cons op l1t ih =>
    intro l2 trie idx
    cases hty : op.type with
    | insert =>
      simp only [List.cons_append, runOperations, hty, List.append_eq]
      rw [ih, List.append_assoc]
    | search =>
      simp only [List.cons_append, runOperations, hty, List.append_eq]
      rw [ih, List.append_assoc]
    | startsWith =>
      simp only [List.cons_append, runOperations, hty, List.append_eq]
      rw [ih, List.append_assoc]

theorem convertToVisual_id (node : TrieNode) (x y : Int) :
    (convertToVisual node x y).id = node.id ∧
      (convertToVisual node x y).isEnd = node.isEnd := by
  cases node with
  | mk i c ch e d =>
    simp [convertToVisual, VisualNode.id, VisualNode.isEnd, TrieNode.id, TrieNode.isEnd]

theorem convertChildren_order (l : List (Char × TrieNode)) :
    ∀ (i cnt : Nat) (x y : Int),
      ((convertChildren l i cnt x y).map (fun v => (v.id, v.isEnd))) =
        l.map (fun p => (p.2.id, p.2.isEnd)) := by
  induction l with
  | nil =>
    intro i cnt x y
    simp [convertChildren]
  | cons p rest ih =>
    intro i cnt x y
    cases p with
    | mk pc pn =>
      simp only [convertChildren, List.map_cons]
      rw [(convertToVisual_id pn _ _).1, (convertToVisual_id pn _ _).2, ih]

/-- C7. Emitted snapshots are independent of later mutation: the steps
produced for an operation list are a prefix of the steps produced when
further operations (and their mutations) follow, each earlier step —
`trieSnapshot` included — unchanged; and the `VisualNode` projection
preserves the live tree's parent-to-children order (children convert
one-for-one, in map insertion order, keeping id and end flag). -/
theorem snapshots_immutable (ops more : List Operation) :
    (generateSteps ops).1 <+: (generateSteps (ops ++ more)).1 ∧
      (∀ (node : TrieNode) (x y : Int),
        ((convertToVisual node x y).children.map (fun v => (v.id, v.isEnd))) =
          node.children.map (fun p => (p.2.id, p.2.isEnd))) := by
  constructor
  · refine ⟨(runOperations ((runOperations Trie.new 1 ops).2.2.1)
      ((runOperations Trie.new 1 ops).2.2.2) more).1, ?_⟩
    simp only [generateSteps, List.cons_append]
    rw [runOperations_append]
  · intro node x y
    cases node with
    | mk i c ch e d =>
      simp only [convertToVisual, VisualNode.children]
      exact convertChildren_order ch 0 ch.length x y

end TrieViz
